import Mathlib

/- Verification of the adaptive Runge-Kutta integrator in
   deepchem/utils/differentiation_utils/integrate/adaptive_rk.py.

   Shallow embedding: flattened tensors are lists of rationals; the solver's
   control flow, slicing and arithmetic are modelled exactly.  The only two
   scalar primitives taken from the tensor library, `Tensor.norm()` and the
   float power `x ** e`, are supplied through an explicit `Backend` record so
   that theorems quantify over them; the concrete backends used for witnesses
   agree with the real Euclidean norm and real power at every value at which
   the corresponding runs evaluate them (length-one vectors, powers of exact
   cubes).  The unbounded `while` loops of `_single_step` and `_step` are
   modelled with an explicit fuel argument returning `Option`. -/

/-- Flattened tensor data: a vector of rationals (torch tensor after `.reshape(-1)`). -/
abbrev Vec := List ℚ

/-- Elementwise addition of two equally shaped flattened tensors (torch `+`). -/
def vadd (xs ys : Vec) : Vec := List.zipWith (· + ·) xs ys

/-- Multiplication of a flattened tensor by a scalar (torch `*` with a scalar). -/
def smul (c : ℚ) (xs : Vec) : Vec := xs.map (fun x => c * x)

/-- `torch.matmul(K.T, w)` for a stage buffer `K` given as a list of rows of
length `n`: the `w`-weighted sum of the rows of `K`. -/
def matTvec (K : List Vec) (w : List ℚ) (n : ℕ) : Vec :=
  (List.zipWith smul w K).foldr vadd (List.replicate n 0)

/-- The two scalar primitives the solver calls out to in the tensor library:
`norm` models `Tensor.norm()` (Euclidean norm of the flattened tensor) and
`rpow` models the float power operator `x ** e`. -/
structure Backend where
  norm : Vec → ℚ
  rpow : ℚ → ℚ → ℚ

/-- Result of `rk_step`: the new state, the new derivative, and the stage
buffer `K` (`n_stages + 1` rows) as filled by the call. -/
structure StepResult where
  ynew : Vec
  fnew : Vec
  K : List Vec
deriving DecidableEq

/-- The stage loop of `rk_step`:
`for s, (a, c) in enumerate(zip(A[1:], C[1:]), start=1): dy = matmul(K[:s].T, a[:s]) * h; K[s] = func(t + c*h, y + dy)`.
The accumulator is the already filled prefix `K[:s]`, so `K[:s]` is the whole
accumulator and `a[:s]` is `a.take K.length`. -/
def buildK (func : ℚ → Vec → Vec) (t : ℚ) (y : Vec) (h : ℚ) :
    List (List ℚ × ℚ) → List Vec → List Vec
  | [], K => K
  | (a, c) :: rest, K =>
      buildK func t y h rest
        (K ++ [func (t + c * h) (vadd y (smul h (matTvec K (a.take K.length) y.length)))])

/-- `rk_step(func, t, y, f, h, (A, B, C, K))`: one explicit Runge-Kutta step.
`K[0] = f`; interior rows from the stage loop; `ynew = y + h * matmul(K[:-1].T, B)`;
`fnew = func(t + h, ynew)`; `K[-1] = fnew`. -/
def rk_step (func : ℚ → Vec → Vec) (t : ℚ) (y f : Vec) (h : ℚ)
    (A : List (List ℚ)) (B C : List ℚ) : StepResult :=
  let Kst := buildK func t y h (List.zip (A.drop 1) (C.drop 1)) [f]
  let ynew := vadd y (smul h (matTvec Kst B y.length))
  let fnew := func (t + h) ynew
  ⟨ynew, fnew, Kst ++ [fnew]⟩

/-- Class-level data of an `RKAdaptiveStepSolver` subclass: the Butcher tableau
`A`, `B`, `C`, `E` plus `n_stages` and `error_estimator_order`.  On the base
class `error_estimator_order` and `n_stages` are `None` (modelled as `none`);
the base class also leaves the tableau attributes `None`, but `__init__` fails
before any of them is touched, so empty lists stand in for them here. -/
structure Scheme where
  A : List (List ℚ)
  B : List ℚ
  C : List ℚ
  E : List ℚ
  n_stages : Option ℕ
  error_estimator_order : Option ℤ
deriving DecidableEq

/-- The base class `RKAdaptiveStepSolver`: every class attribute is `None`. -/
def RKAdaptiveStepSolver_base : Scheme :=
  ⟨[], [], [], [], none, none⟩

/-- The `RK23` subclass: 3 stages, error estimator of order 2
(Bogacki-Shampine coefficients). -/
def RK23 : Scheme :=
  ⟨[[0, 0, 0], [1/2, 0, 0], [0, 3/4, 0]],
   [2/9, 1/3, 4/9],
   [0, 1/2, 3/4],
   [5/72, -1/12, -1/9, 1/8],
   some 3, some 2⟩

/-- The `RK45` subclass: 6 stages, error estimator of order 4
(Dormand-Prince coefficients).  Note the rows of `A` in the source have five
entries each. -/
def RK45 : Scheme :=
  ⟨[[0, 0, 0, 0, 0],
    [1/5, 0, 0, 0, 0],
    [3/40, 9/40, 0, 0, 0],
    [44/45, -56/15, 32/9, 0, 0],
    [19372/6561, -25360/2187, 64448/6561, -212/729, 0],
    [9017/3168, -355/33, 46732/5247, 49/176, -5103/18656]],
   [35/384, 0, 500/1113, 125/192, -2187/6784, 11/84],
   [0, 1/5, 3/10, 4/5, 8/9, 1],
   [-71/57600, 0, 71/16695, -71/1920, 17253/339200, -22/525, 1/40],
   some 6, some 4⟩

/-- A constructed solver instance: the tolerances and the error exponent set by
`__init__`, together with the tableau of the concrete scheme. -/
structure Solver where
  atol : ℚ
  rtol : ℚ
  error_exponent : ℚ
  A : List (List ℚ)
  B : List ℚ
  C : List ℚ
  E : List ℚ
deriving DecidableEq

/-- `self.max_factor = 10` set in `__init__`. -/
def max_factor : ℚ := 10

/-- `self.min_factor = 0.2` set in `__init__`. -/
def min_factor : ℚ := 1/5

/-- `self.step_mult = 0.9` set in `__init__`. -/
def step_mult : ℚ := 9/10

/-- `RKAdaptiveStepSolver.__init__(atol, rtol)`: stores the tolerances and
computes `self.error_exponent = -1. / (self.error_estimator_order + 1.)`.
When `error_estimator_order` is `None` (the base class) the expression
`None + 1.` raises a `TypeError`, modelled as `none`; construction succeeds
exactly for the subclasses that set an integer order. -/
def mkSolver (sch : Scheme) (atol rtol : ℚ) : Option Solver :=
  match sch.error_estimator_order with
  | none => none
  | some o => some ⟨atol, rtol, -1 / ((o : ℚ) + 1), sch.A, sch.B, sch.C, sch.E⟩

/-- `_error_norm(K, h)`: `(torch.matmul(K.T, self.E) * h).norm()`. -/
def error_norm (bk : Backend) (E : List ℚ) (K : List Vec) (h : ℚ) (n : ℕ) : ℚ :=
  bk.norm ((matTvec K E n).map (fun x => x * h))

/-- The `rk_state` 4-tuple `(f, t, y, h)` threaded through the stepping loop. -/
structure RKState where
  f : Vec
  t : ℚ
  y : Vec
  h : ℚ
deriving DecidableEq

/-- All quantities produced by one iteration of the `while not accepted` body
of `_single_step`: the candidate step `hcand` and `prev_rejected` flag on
entry, the clamp decision, the used step, the kernel outputs, the error norm,
the acceptance decision and the adjusted step size `hnext`. -/
structure Attempt where
  hcand : ℚ
  prevRejected : Bool
  t1_achieved : Bool
  hstep : ℚ
  tnew : ℚ
  ynew : Vec
  fnew : Vec
  K : List Vec
  errnorm : ℚ
  accepted : Bool
  hnext : ℚ
deriving DecidableEq

/-- One iteration of the body of the `while not accepted` loop in
`_single_step`, for current state `(f0, t0, y0, h)`, target `t1` and
`prev_rejected = pr`:
`t1_achieved = t0 + h > t1`; `hstep = t1 - t0 if t1_achieved else h`;
`tnew = t0 + hstep`; the `rk_step` call; the scaled error norm;
`accepted = errnorm < 1`; and the step-size adjustment with the
post-rejection growth cap `factor = min(1.0, factor)`. -/
def attempt (bk : Backend) (S : Solver) (func : ℚ → Vec → Vec)
    (f0 : Vec) (t0 : ℚ) (y0 : Vec) (h t1 : ℚ) (pr : Bool) : Attempt :=
  let hstep := if t0 + h > t1 then t1 - t0 else h
  let r := rk_step func t0 y0 f0 hstep S.A S.B S.C
  let scale := S.atol + max (bk.norm y0) (bk.norm r.ynew) * S.rtol
  let en := error_norm bk S.E r.K hstep y0.length / scale
  let factor0 := if en = 0 then max_factor
    else min max_factor (step_mult * bk.rpow en S.error_exponent)
  let factorA := if pr then min 1 factor0 else factor0
  let hnext :=
    if en < 1 then (if t0 + h > t1 then h else h * factorA)
    else hstep * max min_factor (step_mult * bk.rpow en S.error_exponent)
  ⟨h, pr, decide (t0 + h > t1), hstep, t0 + hstep, r.ynew, r.fnew, r.K, en,
   decide (en < 1), hnext⟩

/-- The `while not accepted` loop of `_single_step`, with fuel: retries from
the same `(f0, t0, y0)` with the shrunken candidate and `prev_rejected = True`
until an attempt is accepted, and returns that accepted attempt. -/
def single_step_loop (bk : Backend) (S : Solver) (func : ℚ → Vec → Vec)
    (f0 : Vec) (t0 : ℚ) (y0 : Vec) (t1 : ℚ) : ℕ → ℚ → Bool → Option Attempt
  | 0, _, _ => none
  | fuel + 1, h, pr =>
      let a := attempt bk S func f0 t0 y0 h t1 pr
      if a.accepted then some a
      else single_step_loop bk S func f0 t0 y0 t1 fuel a.hnext true

/-- `_single_step(rk_state, t1)`: returns the new
`rk_state = (fnew, tnew, ynew, h)` and the `t1_achieved` flag.
`prev_rejected` starts `False` on every call. -/
def single_step (bk : Backend) (S : Solver) (func : ℚ → Vec → Vec)
    (st : RKState) (t1 : ℚ) (fuel : ℕ) : Option (RKState × Bool) :=
  (single_step_loop bk S func st.f st.t st.y t1 fuel st.h false).map
    (fun a => (⟨a.fnew, a.tnew, a.ynew, a.hnext⟩, a.t1_achieved))

/-- `_step(rk_state, t1)`: `while not t1_achieved: rk_state, t1_achieved = self._single_step(rk_state, t1)`,
with fuel on the outer loop and `inner` fuel for each `_single_step` call. -/
def step_loop (bk : Backend) (S : Solver) (func : ℚ → Vec → Vec) (t1 : ℚ)
    (inner : ℕ) : ℕ → RKState → Option RKState
  | 0, _ => none
  | fuel + 1, st =>
      match single_step bk S func st t1 inner with
      | none => none
      | some (st', ach) =>
          if ach then some st' else step_loop bk S func t1 inner fuel st'

/-- The recording loop of `solve`: `for i in range(1, len(ts)): rk_state = self._step(rk_state, ts[i]); yt[i] = rk_state[2]`,
iterated over the list of remaining grid targets. -/
def solve_loop (bk : Backend) (S : Solver) (func : ℚ → Vec → Vec)
    (inner outer : ℕ) : List ℚ → RKState → Option (List Vec)
  | [], _ => some []
  | t1 :: rest, st =>
      match step_loop bk S func t1 inner outer st with
      | none => none
      | some st' => (solve_loop bk S func inner outer rest st').map
          (fun ys => st'.y :: ys)

/-- A shaped tensor: the shape recorded by `setup` (`self.yshape`) together
with the flattened data (`reshape(-1)` view). -/
structure Tensor where
  shape : List ℕ
  data : List ℚ
deriving DecidableEq

/-- The time grid stored by `setup`: `direction = ts[1] - ts[0]`;
`self.ts = -ts` when `direction < 0`, else `self.ts = ts`. -/
def setup_ts (ts : List ℚ) : List ℚ :=
  if ts.getD 1 0 - ts.getD 0 0 < 0 then ts.map (fun t => -t) else ts

/-- The wrapped derivative function stored by `setup`:
`lambda t, y: -fcn(-t, y.reshape(self.yshape), *params).reshape(-1)` when the
grid is decreasing, else
`lambda t, y: fcn(t, y.reshape(self.yshape), *params).reshape(-1)`. -/
def setup_func {α : Type} (fcn : ℚ → Tensor → α → Tensor) (shape : List ℕ)
    (params : α) (ts : List ℚ) : ℚ → Vec → Vec :=
  if ts.getD 1 0 - ts.getD 0 0 < 0 then
    fun t y => ((fcn (-t) ⟨shape, y⟩ params).data).map (fun x => -x)
  else
    fun t y => (fcn t ⟨shape, y⟩ params).data

/-- `setup` followed by `solve()`: flattens `y0`, fixes the grid and wrapped
function, sets `f0 = func(t0, y0)` and `h0 = ts[1] - ts[0]`, records `y0` as
entry 0, runs the stepping loop over the remaining grid points, and reshapes
every recorded flat vector back to `y0`'s shape. -/
def solve {α : Type} (bk : Backend) (S : Solver) (fcn : ℚ → Tensor → α → Tensor)
    (ts : List ℚ) (y0 : Tensor) (params : α) (inner outer : ℕ) :
    Option (List Tensor) :=
  let y0f := y0.data
  let tsI := setup_ts ts
  let func := setup_func fcn y0.shape params ts
  let t0 := tsI.getD 0 0
  let f0 := func t0 y0f
  let h0 := tsI.getD 1 0 - tsI.getD 0 0
  (solve_loop bk S func inner outer (tsI.drop 1) ⟨f0, t0, y0f, h0⟩).map
    (fun ys => (y0f :: ys).map (fun v => ⟨y0.shape, v⟩))

/-- Concrete norm used in the witness runs below; every run evaluates `norm`
only on vectors of length one, where `|x|` is exactly the Euclidean norm. -/
def norm1d : Vec → ℚ := fun xs => |xs.headD 0|

/-- Concrete power used in the witness runs below; every run evaluates `rpow`
only at `(8, -1/3)`, where the real power is exactly `1/2`.  All values lie in
`[0, 1]`, as the real power of a base `≥ 1` with negative exponent does. -/
def rpowTab : ℚ → ℚ → ℚ := fun x e => if x = 8 ∧ e = -(1/3) then 1/2 else 1

/-- Concrete backend for the witness runs. -/
def bk1 : Backend := ⟨norm1d, rpowTab⟩

/-- `RK23(atol=1, rtol=0)`: the solver instance the witness runs use. -/
def S23 : Solver := ⟨1, 0, -1/3, RK23.A, RK23.B, RK23.C, RK23.E⟩

/-- The identically zero derivative function, at the shaped-tensor interface. -/
def fcnZero : ℚ → Tensor → Unit → Tensor := fun _ y _ => ⟨y.shape, y.data.map (fun _ => 0)⟩

/-- The identically zero derivative function, at the flattened interface. -/
def funcZeroV : ℚ → Vec → Vec := fun _ _ => [0]

/-- A user-supplied derivative that vanishes for `t ≤ 47` and is the constant
`144/125` afterwards: its first RK23 attempt from `t = 0` with `h = 100` has
error norm exactly `8` (rejected), and the retried attempt with `h = 45` stays
in the vanishing region and has error norm `0` (accepted). -/
def funcPieceV : ℚ → Vec → Vec := fun t _ => [if t ≤ 47 then 0 else 144/125]

/-- The constant derivative `1`, used to exercise `rk_step` concretely. -/
def fcnOneV : ℚ → Vec → Vec := fun _ _ => [1]

/-- `getD` of an append, index inside the first list. -/
lemma getD_append_lt {γ : Type} (l l' : List γ) (d : γ) (n : ℕ) (hn : n < l.length) :
    (l ++ l').getD n d = l.getD n d := by
  induction l generalizing n with
  | nil => cases hn
  | cons x xs ih =>
      cases n with
      | zero => rfl
      | succ m => simpa using ih m (Nat.lt_of_succ_lt_succ hn)

/-- `getD` of an append, index at the length of the first list. -/
lemma getD_append_len {γ : Type} (l : List γ) (x : γ) (l' : List γ) (d : γ) :
    (l ++ x :: l').getD l.length d = x := by
  induction l with
  | nil => rfl
  | cons y ys ih => simpa using ih

/-- `take` of an append, count inside the first list. -/
lemma take_append_le {γ : Type} (l l' : List γ) (n : ℕ) (hn : n ≤ l.length) :
    (l ++ l').take n = l.take n := by
  induction l generalizing n with
  | nil =>
      cases Nat.le_zero.mp hn
      rfl
  | cons x xs ih =>
      cases n with
      | zero => rfl
      | succ m => simpa using ih m (Nat.le_of_succ_le_succ hn)

/-- `getD` of a `zip`, index inside both lists. -/
lemma zip_getD {γ δ : Type} (l1 : List γ) (l2 : List δ) (n : ℕ) (d1 : γ) (d2 : δ)
    (h1 : n < l1.length) (h2 : n < l2.length) :
    (List.zip l1 l2).getD n (d1, d2) = (l1.getD n d1, l2.getD n d2) := by
  induction l1 generalizing l2 n with
  | nil => cases h1
  | cons x xs ih =>
      cases l2 with
      | nil => cases h2
      | cons y ys =>
          cases n with
          | zero => rfl
          | succ m =>
              simpa using ih ys m (Nat.lt_of_succ_lt_succ h1) (Nat.lt_of_succ_lt_succ h2)

/-- `getD` after dropping one element. -/
lemma drop_one_getD {γ : Type} (l : List γ) (n : ℕ) (d : γ) :
    (l.drop 1).getD n d = l.getD (n + 1) d := by
  cases l <;> rfl

/-- `buildK` only appends to the accumulator. -/
lemma buildK_eq_append (func : ℚ → Vec → Vec) (t : ℚ) (y : Vec) (h : ℚ) :
    ∀ (ps : List (List ℚ × ℚ)) (K : List Vec),
      ∃ l, buildK func t y h ps K = K ++ l := by
  intro ps
  induction ps with
  | nil => exact fun K => ⟨[], (List.append_nil K).symm⟩
  | cons p rest ih =>
      intro K
      obtain ⟨a, c⟩ := p
      obtain ⟨l, hl⟩ :=
        ih (K ++ [func (t + c * h) (vadd y (smul h (matTvec K (a.take K.length) y.length)))])
      refine ⟨[func (t + c * h) (vadd y (smul h (matTvec K (a.take K.length) y.length)))] ++ l, ?_⟩
      rw [buildK, hl, List.append_assoc]

/-- `buildK` adds one row per stage pair. -/
lemma buildK_length (func : ℚ → Vec → Vec) (t : ℚ) (y : Vec) (h : ℚ) :
    ∀ (ps : List (List ℚ × ℚ)) (K : List Vec),
      (buildK func t y h ps K).length = K.length + ps.length := by
  intro ps
  induction ps with
  | nil => intro K; rfl
  | cons p rest ih =>
      intro K
      obtain ⟨a, c⟩ := p
      rw [buildK, ih]
      simp
      omega

/-- Row characterization of `buildK`: the row appended for the `j`-th stage
pair is the derivative evaluated at `t + c*h` on the state extrapolated from
the rows before it. -/
lemma buildK_getD (func : ℚ → Vec → Vec) (t : ℚ) (y : Vec) (h : ℚ) :
    ∀ (ps : List (List ℚ × ℚ)) (K : List Vec) (j : ℕ), j < ps.length →
      (buildK func t y h ps K).getD (K.length + j) [] =
        func (t + (ps.getD j ([], 0)).2 * h)
          (vadd y (smul h (matTvec ((buildK func t y h ps K).take (K.length + j))
            ((ps.getD j ([], 0)).1.take (K.length + j)) y.length))) := by
  intro ps
  induction ps with
  | nil => intro K j hj; cases hj
  | cons p rest ih =>
      intro K j hj
      obtain ⟨a, c⟩ := p
      cases j with
      | zero =>
          rw [buildK]
          obtain ⟨l, hl⟩ := buildK_eq_append func t y h rest
            (K ++ [func (t + c * h) (vadd y (smul h (matTvec K (a.take K.length) y.length)))])
          rw [hl, List.append_assoc]
          simp only [List.cons_append, List.nil_append, Nat.add_zero]
          rw [getD_append_len, take_append_le _ _ _ (Nat.le_refl _), List.take_length]
          rfl
      | succ k =>
          have hk : k < rest.length := Nat.lt_of_succ_lt_succ hj
          have hK' : (K ++ [func (t + c * h)
              (vadd y (smul h (matTvec K (a.take K.length) y.length)))]).length
              = K.length + 1 := by simp
          have hidx : K.length + (k + 1)
              = (K ++ [func (t + c * h)
                  (vadd y (smul h (matTvec K (a.take K.length) y.length)))]).length + k := by
            rw [hK']; omega
          rw [buildK, hidx]
          have := ih (K ++ [func (t + c * h)
              (vadd y (smul h (matTvec K (a.take K.length) y.length)))]) k hk
          simpa using this

/-- Strict lower-triangularity of a matrix given as a list of rows: every
stored entry on or above the diagonal is zero. -/
abbrev strictLowerTriangular (A : List (List ℚ)) : Prop :=
  ∀ i, i < A.length → ∀ j, j < (A.getD i []).length → i ≤ j → (A.getD i []).getD j 0 = 0

/-- The tableau shape property exactly as the claim states it for a scheme
with stage count `s`: `A` is a strictly lower-triangular matrix of shape
`(s, s)`, `B` and `C` have length `s`, `E` has length `s + 1`, and `C[0] = 0`. -/
abbrev tableauShapeClaim (sch : Scheme) (s : ℕ) : Prop :=
  sch.n_stages = some s ∧
  sch.A.length = s ∧ (∀ row ∈ sch.A, row.length = s) ∧
  strictLowerTriangular sch.A ∧
  sch.B.length = s ∧ sch.C.length = s ∧
  sch.E.length = s + 1 ∧ sch.C.getD 0 1 = 0

/-- C1, counterexample: the claim fails on the registered `RK45` scheme — its
`A` matrix as written in the source has 6 rows of 5 entries each, so it is not
of shape `(6, 6)`. -/
theorem tableau_shape_claim_cex : ¬ tableauShapeClaim RK45 6 := by decide

/-- C1, amended: `RK23`'s tableau satisfies the claim verbatim (with `s = 3`);
`RK45`'s tableau satisfies it except that `A` has shape `(6, 5)` — six rows of
five entries, strictly lower-triangular in the sense that every stored entry
on or above the diagonal is zero — while `B`, `C` have length 6, `E` has
length 7, and `C[0] = 0`. -/
theorem tableau_shape_amended :
    tableauShapeClaim RK23 3 ∧
    (RK45.n_stages = some 6 ∧ RK45.A.length = 6 ∧ (∀ row ∈ RK45.A, row.length = 5) ∧
      strictLowerTriangular RK45.A ∧ RK45.B.length = 6 ∧ RK45.C.length = 6 ∧
      RK45.E.length = 7 ∧ RK45.C.getD 0 1 = 0) := by decide

/-- C10: constructing the base `RKAdaptiveStepSolver` raises for every `atol`
and `rtol`, because `__init__` computes `-1. / (error_estimator_order + 1.)`
and the base class leaves `error_estimator_order = None` (so `None + 1.` is a
`TypeError`); the concrete subclasses `RK23` and `RK45`, which set integer
estimator orders 2 and 4, construct successfully with error exponents `-1/3`
and `-1/5`. -/
theorem base_solver_init_raises :
    (∀ atol rtol : ℚ, mkSolver RKAdaptiveStepSolver_base atol rtol = none) ∧
    (∀ atol rtol : ℚ, mkSolver RK23 atol rtol =
      some ⟨atol, rtol, -1/3, RK23.A, RK23.B, RK23.C, RK23.E⟩) ∧
    (∀ atol rtol : ℚ, mkSolver RK45 atol rtol =
      some ⟨atol, rtol, -1/5, RK45.A, RK45.B, RK45.C, RK45.E⟩) := by
  refine ⟨fun _ _ => rfl, fun atol rtol => ?_, fun atol rtol => ?_⟩ <;>
    · simp only [mkSolver, RK23, RK45]
      norm_num

/-- C3: for every tableau, state `y`, derivative `f`, time `t` and step `h`,
`rk_step` fills the stage buffer `K` so that row 0 is `f`, each row
`i ∈ 1..s-1` is the derivative evaluated at `t + C[i]*h` on the extrapolated
state `y + h * matmul(K[:i].T, A[i][:i])`, and the final row `s` is the
derivative at the new state; it returns
`ynew = y + h * matmul(K[:-1].T, B)` and `fnew = func(t + h, ynew)`.  The
model is a pure function of its arguments, so the kernel is deterministic and
performs no internal retries. -/
theorem rk_step_fills_stage_buffer (func : ℚ → Vec → Vec) (t : ℚ) (y f : Vec) (h : ℚ)
    (A : List (List ℚ)) (B C : List ℚ)
    (hs : 1 ≤ A.length) (hAC : C.length = A.length) :
    (rk_step func t y f h A B C).K.length = A.length + 1 ∧
    (rk_step func t y f h A B C).K.getD 0 [] = f ∧
    (∀ i, 1 ≤ i → i < A.length →
      (rk_step func t y f h A B C).K.getD i [] =
        func (t + C.getD i 0 * h)
          (vadd y (smul h (matTvec ((rk_step func t y f h A B C).K.take i)
            ((A.getD i []).take i) y.length)))) ∧
    (rk_step func t y f h A B C).ynew =
      vadd y (smul h (matTvec ((rk_step func t y f h A B C).K.take A.length) B y.length)) ∧
    (rk_step func t y f h A B C).fnew = func (t + h) (rk_step func t y f h A B C).ynew ∧
    (rk_step func t y f h A B C).K.getD A.length [] = (rk_step func t y f h A B C).fnew := by
  have hps : (List.zip (A.drop 1) (C.drop 1)).length = A.length - 1 := by
    rw [List.length_zip]
    simp [hAC]
  have hKst : (buildK func t y h (List.zip (A.drop 1) (C.drop 1)) [f]).length = A.length := by
    rw [buildK_length, hps]
    simp
    omega
  simp only [rk_step]
  refine ⟨?_, ?_, ?_, ?_, ?_, ?_⟩
  · rw [List.length_append, hKst, List.length_singleton]
  · obtain ⟨l0, hl0⟩ := buildK_eq_append func t y h (List.zip (A.drop 1) (C.drop 1)) [f]
    rw [hl0, List.append_assoc]
    rfl
  · intro i h1 h2
    have hj : i - 1 < (List.zip (A.drop 1) (C.drop 1)).length := by omega
    have hidx : i = [f].length + (i - 1) := by simp; omega
    have hrow := buildK_getD func t y h (List.zip (A.drop 1) (C.drop 1)) [f] (i - 1) hj
    have hzip : (List.zip (A.drop 1) (C.drop 1)).getD (i - 1) ([], 0)
        = ((A.drop 1).getD (i - 1) [], (C.drop 1).getD (i - 1) 0) := by
      apply zip_getD
      · simp; omega
      · simp [hAC]; omega
    have hAd : (A.drop 1).getD (i - 1) [] = A.getD (i - 1 + 1) [] := drop_one_getD A (i - 1) []
    have hCd : (C.drop 1).getD (i - 1) 0 = C.getD (i - 1 + 1) 0 := drop_one_getD C (i - 1) 0
    have hi1 : i - 1 + 1 = i := by omega
    have hidx2 : [f].length + (i - 1) = i := by
      simp only [List.length_singleton]
      omega
    rw [hzip, hAd, hCd, hi1, hidx2] at hrow
    have hKout : (buildK func t y h (List.zip (A.drop 1) (C.drop 1)) [f]
        ++ [func (t + h) (vadd y (smul h (matTvec
          (buildK func t y h (List.zip (A.drop 1) (C.drop 1)) [f]) B y.length)))]).getD i []
        = (buildK func t y h (List.zip (A.drop 1) (C.drop 1)) [f]).getD i [] := by
      apply getD_append_lt
      rw [hKst]
      exact h2
    have hTout : (buildK func t y h (List.zip (A.drop 1) (C.drop 1)) [f]
        ++ [func (t + h) (vadd y (smul h (matTvec
          (buildK func t y h (List.zip (A.drop 1) (C.drop 1)) [f]) B y.length)))]).take i
        = (buildK func t y h (List.zip (A.drop 1) (C.drop 1)) [f]).take i := by
      apply take_append_le
      rw [hKst]
      omega
    rw [hKout, hTout]
    exact hrow
  · have hT : (buildK func t y h (List.zip (A.drop 1) (C.drop 1)) [f]
        ++ [func (t + h) (vadd y (smul h (matTvec
          (buildK func t y h (List.zip (A.drop 1) (C.drop 1)) [f]) B y.length)))]).take A.length
        = buildK func t y h (List.zip (A.drop 1) (C.drop 1)) [f] := by
      rw [take_append_le _ _ _ (le_of_eq hKst.symm), ← hKst, List.take_length]
    rw [hT]
  · trivial
  · rw [← hKst]
    exact getD_append_len _ _ _ _

/-- C3, witness: the `rk_step` characterization instantiated on the `RK23`
tableau with the constant derivative `1` from `y = [0]`, `f = [1]`, `h = 1`,
evaluated at stage row 1. -/
theorem rk_step_fills_stage_buffer_witness :
    ((1 : ℕ) ≤ RK23.A.length ∧ RK23.C.length = RK23.A.length) ∧
    (rk_step fcnOneV 0 [0] [1] 1 RK23.A RK23.B RK23.C).K.getD 0 [] = [1] ∧
    (rk_step fcnOneV 0 [0] [1] 1 RK23.A RK23.B RK23.C).K.getD 1 [] =
      fcnOneV (0 + RK23.C.getD 1 0 * 1)
        (vadd [0] (smul 1 (matTvec ((rk_step fcnOneV 0 [0] [1] 1 RK23.A RK23.B RK23.C).K.take 1)
          ((RK23.A.getD 1 []).take 1) ([0] : Vec).length))) := by
  refine ⟨⟨by decide, by decide⟩, ?_, ?_⟩
  · exact (rk_step_fills_stage_buffer fcnOneV 0 [0] [1] 1 RK23.A RK23.B RK23.C
      (by decide) (by decide)).2.1
  · exact (rk_step_fills_stage_buffer fcnOneV 0 [0] [1] 1 RK23.A RK23.B RK23.C
      (by decide) (by decide)).2.2.1 1 (by decide) (by decide)

/-- Clamp bookkeeping of one loop iteration: the `t1_achieved` flag records
exactly the overshoot test `t0 + h > t1`, and on overshoot the used step is
clamped to `t1 - t0` so the attempt lands exactly on `t1`. -/
lemma attempt_clamp (bk : Backend) (S : Solver) (func : ℚ → Vec → Vec)
    (f0 : Vec) (t0 : ℚ) (y0 : Vec) (h t1 : ℚ) (pr : Bool) :
    ((attempt bk S func f0 t0 y0 h t1 pr).t1_achieved = true ↔ t0 + h > t1) ∧
    ((attempt bk S func f0 t0 y0 h t1 pr).t1_achieved = true →
      (attempt bk S func f0 t0 y0 h t1 pr).hstep = t1 - t0 ∧
      (attempt bk S func f0 t0 y0 h t1 pr).tnew = t1) ∧
    (attempt bk S func f0 t0 y0 h t1 pr).hcand = h ∧
    (attempt bk S func f0 t0 y0 h t1 pr).prevRejected = pr := by
  simp only [attempt]
  refine ⟨decide_eq_true_iff, ?_, trivial, trivial⟩
  intro hd
  have hgt : t0 + h > t1 := of_decide_eq_true hd
  rw [if_pos hgt]
  constructor
  · rfl
  · ring

/-- An accepted attempt has error norm strictly below one. -/
lemma attempt_accepted_errnorm_lt (bk : Backend) (S : Solver) (func : ℚ → Vec → Vec)
    (f0 : Vec) (t0 : ℚ) (y0 : Vec) (h t1 : ℚ) (pr : Bool)
    (hacc : (attempt bk S func f0 t0 y0 h t1 pr).accepted = true) :
    (attempt bk S func f0 t0 y0 h t1 pr).errnorm < 1 := by
  simp only [attempt] at hacc ⊢
  exact of_decide_eq_true hacc

/-- Any attempt returned by the single-step loop was accepted, and is one of
the loop's attempts from the same `(f0, t0, y0)` and the same target `t1`. -/
lemma single_step_loop_some (bk : Backend) (S : Solver) (func : ℚ → Vec → Vec)
    (f0 : Vec) (t0 : ℚ) (y0 : Vec) (t1 : ℚ) :
    ∀ (fuel : ℕ) (h : ℚ) (pr : Bool) (a : Attempt),
      single_step_loop bk S func f0 t0 y0 t1 fuel h pr = some a →
      a.accepted = true ∧ ∃ h0 pr0, a = attempt bk S func f0 t0 y0 h0 t1 pr0 := by
  intro fuel
  induction fuel with
  | zero => intro h pr a ha; cases ha
  | succ n ih =>
      intro h pr a ha
      simp only [single_step_loop] at ha
      split at ha
      · cases ha
        exact ⟨by assumption, h, pr, rfl⟩
      · exact ih _ _ a ha

/-- Any state returned by the `_step` loop comes from an accepted attempt
whose `t1_achieved` flag is set. -/
lemma step_loop_some (bk : Backend) (S : Solver) (func : ℚ → Vec → Vec)
    (t1 : ℚ) (inner : ℕ) :
    ∀ (fuel : ℕ) (st st' : RKState),
      step_loop bk S func t1 inner fuel st = some st' →
      ∃ f0 t0 y0 h0 pr0,
        (attempt bk S func f0 t0 y0 h0 t1 pr0).accepted = true ∧
        (attempt bk S func f0 t0 y0 h0 t1 pr0).t1_achieved = true ∧
        st' = ⟨(attempt bk S func f0 t0 y0 h0 t1 pr0).fnew,
               (attempt bk S func f0 t0 y0 h0 t1 pr0).tnew,
               (attempt bk S func f0 t0 y0 h0 t1 pr0).ynew,
               (attempt bk S func f0 t0 y0 h0 t1 pr0).hnext⟩ := by
  intro fuel
  induction fuel with
  | zero => intro st st' hst; cases hst
  | succ n ih =>
      intro st st' hst
      simp only [step_loop] at hst
      cases hss : single_step bk S func st t1 inner with
      | none => rw [hss] at hst; cases hst
      | some p =>
          rw [hss] at hst
          obtain ⟨st2, ach⟩ := p
          simp only at hst
          cases hach : ach with
          | true =>
              rw [hach, if_pos rfl] at hst
              cases hst
              simp only [single_step] at hss
              rw [Option.map_eq_some'] at hss
              obtain ⟨a, hla, hpa⟩ := hss
              obtain ⟨hacc, h0, pr0, haeq⟩ :=
                single_step_loop_some bk S func st.f st.t st.y t1 _ _ _ _ hla
              refine ⟨st.f, st.t, st.y, h0, pr0, haeq ▸ hacc, ?_, ?_⟩
              · have : a.t1_achieved = true := by
                  have := congrArg Prod.snd hpa
                  simp at this
                  rw [this, hach]
                rw [← haeq]
                exact this
              · have := congrArg Prod.fst hpa
                simp at this
                rw [← this, ← haeq]
          | false =>
              rw [hach, if_neg (by simp)] at hst
              exact ih _ _ hst

/-- The recording loop of `solve` records one state per target, and every
recorded flat vector is the `ynew` of an accepted attempt. -/
lemma solve_loop_some (bk : Backend) (S : Solver) (func : ℚ → Vec → Vec)
    (inner outer : ℕ) :
    ∀ (ts : List ℚ) (st : RKState) (ys : List Vec),
      solve_loop bk S func inner outer ts st = some ys →
      ys.length = ts.length ∧
      ∀ y ∈ ys, ∃ f0 t0 y0 h0 t1 pr0,
        (attempt bk S func f0 t0 y0 h0 t1 pr0).accepted = true ∧
        y = (attempt bk S func f0 t0 y0 h0 t1 pr0).ynew := by
  intro ts
  induction ts with
  | nil =>
      intro st ys hys
      cases hys
      exact ⟨rfl, by intro y hy; cases hy⟩
  | cons t1 rest ih =>
      intro st ys hys
      simp only [solve_loop] at hys
      cases hsl : step_loop bk S func t1 inner outer st with
      | none => rw [hsl] at hys; cases hys
      | some st2 =>
          rw [hsl] at hys
          simp only [Option.map_eq_some'] at hys
          obtain ⟨ys', hys', rfl⟩ := hys
          obtain ⟨hlen, hmem⟩ := ih st2 ys' hys'
          refine ⟨by simp [hlen], ?_⟩
          intro y hy
          rcases List.mem_cons.mp hy with hy0 | hyr
          · obtain ⟨f0, t0, y0, h0, pr0, hacc, _, hsteq⟩ :=
              step_loop_some bk S func t1 inner outer st st2 hsl
            refine ⟨f0, t0, y0, h0, t1, pr0, hacc, ?_⟩
            rw [hy0, hsteq]
          · exact hmem y hyr

/-- C2: in the stepping loop a sub-step is accepted iff its error norm is
strictly below 1, where the error norm is
`‖matmul(K.T, E) * h_used‖ / scale` with
`scale = atol + max(‖y_current‖, ‖y_new‖) * rtol`; consequently every
sub-step whose result is recorded into the trajectory returned by `solve`
(all entries after the initial value) is the `ynew` of an attempt that was
accepted with error norm strictly below 1. -/
theorem accepted_iff_error_norm_lt_one :
    (∀ (bk : Backend) (S : Solver) (func : ℚ → Vec → Vec) (f0 : Vec) (t0 : ℚ) (y0 : Vec)
       (h t1 : ℚ) (pr : Bool),
       (attempt bk S func f0 t0 y0 h t1 pr).accepted = true ↔
         error_norm bk S.E (attempt bk S func f0 t0 y0 h t1 pr).K
             (attempt bk S func f0 t0 y0 h t1 pr).hstep y0.length /
           (S.atol + max (bk.norm y0) (bk.norm (attempt bk S func f0 t0 y0 h t1 pr).ynew)
             * S.rtol) < 1) ∧
    (∀ (α : Type) (bk : Backend) (S : Solver) (fcn : ℚ → Tensor → α → Tensor)
       (ts : List ℚ) (y0 : Tensor) (params : α) (inner outer : ℕ) (out : List Tensor),
       solve bk S fcn ts y0 params inner outer = some out →
       ∀ T ∈ out.drop 1, ∃ f0 t0 yc h t1 pr,
         (attempt bk S (setup_func fcn y0.shape params ts) f0 t0 yc h t1 pr).accepted = true ∧
         (attempt bk S (setup_func fcn y0.shape params ts) f0 t0 yc h t1 pr).errnorm < 1 ∧
         T.data = (attempt bk S (setup_func fcn y0.shape params ts) f0 t0 yc h t1 pr).ynew) := by
  constructor
  · intro bk S func f0 t0 y0 h t1 pr
    simp only [attempt]
    exact decide_eq_true_iff
  · intro α bk S fcn ts y0 params inner outer out hout
    simp only [solve, Option.map_eq_some'] at hout
    obtain ⟨ys, hys, rfl⟩ := hout
    intro T hT
    simp only [List.map_cons, List.drop_succ_cons, List.drop_zero] at hT
    obtain ⟨y, hym, rfl⟩ := List.mem_map.mp hT
    obtain ⟨_, hmem⟩ := solve_loop_some bk S (setup_func fcn y0.shape params ts)
      inner outer _ _ ys hys
    obtain ⟨f0, t0, yc, h0, t1, pr0, hacc, hyeq⟩ := hmem y hym
    exact ⟨f0, t0, yc, h0, t1, pr0, hacc,
      attempt_accepted_errnorm_lt bk S _ f0 t0 yc h0 t1 pr0 hacc, hyeq⟩

/-- C2, witness: the acceptance characterization instantiated on a concrete
solved trajectory (zero derivative, `ts = [0, 1]`). -/
theorem accepted_iff_error_norm_lt_one_witness :
    (solve bk1 S23 fcnZero [0, 1] ⟨[1], [0]⟩ () 4 4 =
      some [⟨[1], [0]⟩, ⟨[1], [0]⟩]) ∧
    (∀ T ∈ ([⟨[1], [0]⟩, ⟨[1], [0]⟩] : List Tensor).drop 1, ∃ f0 t0 yc h t1 pr,
      (attempt bk1 S23 (setup_func fcnZero [1] () [0, 1]) f0 t0 yc h t1 pr).accepted = true ∧
      (attempt bk1 S23 (setup_func fcnZero [1] () [0, 1]) f0 t0 yc h t1 pr).errnorm < 1 ∧
      T.data = (attempt bk1 S23 (setup_func fcnZero [1] () [0, 1]) f0 t0 yc h t1 pr).ynew) := by
  have hrun : solve bk1 S23 fcnZero [0, 1] ⟨[1], [0]⟩ () 4 4 =
      some [⟨[1], [0]⟩, ⟨[1], [0]⟩] := by
    norm_num [solve, setup_ts, setup_func, solve_loop, step_loop, single_step,
      single_step_loop, attempt, rk_step, buildK, matTvec, vadd, smul, error_norm,
      norm1d, rpowTab, bk1, S23, RK23, fcnZero, max_factor, min_factor, step_mult]
  exact ⟨hrun, accepted_iff_error_norm_lt_one.2 Unit bk1 S23 fcnZero [0, 1] ⟨[1], [0]⟩ () 4 4
    [⟨[1], [0]⟩, ⟨[1], [0]⟩] hrun⟩

/-- The accepted attempt of the sub-step that lands exactly on the target
without overshooting: `t0 = 0`, `h = 1`, `t1 = 1` with the zero derivative. -/
def aLand : Attempt := ⟨1, false, false, 1, 1, [0], [0], [[0], [0], [0], [0]], 0, true, 10⟩

/-- The accepted terminal attempt of the follow-up zero-width sub-step. -/
def aTerm : Attempt := ⟨10, false, true, 0, 1, [0], [0], [[0], [0], [0], [0]], 0, true, 10⟩

/-- C5, counterexample: with the zero derivative, `t0 = 0`, `h = 1` and target
`t1 = 1`, the first sub-step is accepted and lands exactly on `t_next`
(`tnew = 1 = t1`), yet `t1_achieved = t0 + h > t1` is `False`, so the
interval's loop does not terminate with it: `_single_step` returns the flag
`False` and `_step` runs a further (zero-width) sub-step.  This refutes "the
interval's loop terminates exactly when a sub-step lands exactly on `t_next`
and is accepted". -/
theorem interval_termination_cex :
    single_step_loop bk1 S23 funcZeroV [0] 0 [0] 1 4 1 false = some aLand ∧
    aLand.accepted = true ∧ aLand.tnew = 1 ∧ aLand.t1_achieved = false ∧
    single_step bk1 S23 funcZeroV ⟨[0], 0, [0], 1⟩ 1 4 = some (⟨[0], 1, [0], 10⟩, false) := by
  refine ⟨?_, rfl, rfl, rfl, ?_⟩ <;>
    norm_num [single_step, single_step_loop, attempt, rk_step, buildK, matTvec, vadd,
      smul, error_norm, norm1d, rpowTab, bk1, S23, RK23, funcZeroV, aLand,
      max_factor, min_factor, step_mult]

/-- C5, amended: if `t_current + h` would overshoot `t_next` the used step is
clamped to `t_next - t_current` and the sub-step is marked terminal; the
interval's loop terminates exactly when an accepted sub-step's candidate
overshot (`t_current + h > t_next`, strictly), in which case it lands exactly
on `t_next`, and the state recorded for the interval has time exactly
`t_next`.  An accepted sub-step that lands exactly on `t_next` without
overshooting does not terminate the loop (a subsequent zero-width sub-step
does). -/
theorem interval_termination_amended (bk : Backend) (S : Solver) (func : ℚ → Vec → Vec)
    (f0 : Vec) (t0 : ℚ) (y0 : Vec) (t1 : ℚ) (fuel : ℕ) (h : ℚ) (pr : Bool) (a : Attempt)
    (ha : single_step_loop bk S func f0 t0 y0 t1 fuel h pr = some a) :
    a.accepted = true ∧
    (a.t1_achieved = true ↔ t0 + a.hcand > t1) ∧
    (a.t1_achieved = true → a.hstep = t1 - t0 ∧ a.tnew = t1) ∧
    (∀ (inner outer : ℕ) (st st' : RKState),
      step_loop bk S func t1 inner outer st = some st' → st'.t = t1) := by
  obtain ⟨hacc, h0, pr0, haeq⟩ := single_step_loop_some bk S func f0 t0 y0 t1 fuel h pr a ha
  obtain ⟨hiff, hclamp, hhc, _⟩ := attempt_clamp bk S func f0 t0 y0 h0 t1 pr0
  refine ⟨hacc, ?_, ?_, ?_⟩
  · rw [haeq, hhc]
    exact hiff
  · rw [haeq]
    exact hclamp
  · intro inner outer st st' hst
    obtain ⟨f1, th1, y1, h1, pr1, _, hach, hsteq⟩ :=
      step_loop_some bk S func t1 inner outer st st' hst
    obtain ⟨_, hclamp1, _, _⟩ := attempt_clamp bk S func f1 th1 y1 h1 t1 pr1
    rw [hsteq]
    exact (hclamp1 hach).2

/-- C5, witness: the amended characterization instantiated on the terminal
zero-width sub-step from `t0 = 1` with `h = 10` and target `t1 = 1` (which
overshoots, is clamped to a zero-width step, and lands exactly on `t1`). -/
theorem interval_termination_amended_witness :
    (single_step_loop bk1 S23 funcZeroV [0] 1 [0] 1 4 10 false = some aTerm) ∧
    (aTerm.accepted = true ∧
     (aTerm.t1_achieved = true ↔ (1 : ℚ) + aTerm.hcand > 1) ∧
     (aTerm.t1_achieved = true → aTerm.hstep = 1 - 1 ∧ aTerm.tnew = 1) ∧
     (∀ (inner outer : ℕ) (st st' : RKState),
       step_loop bk1 S23 funcZeroV 1 inner outer st = some st' → st'.t = 1)) := by
  have hrun : single_step_loop bk1 S23 funcZeroV [0] 1 [0] 1 4 10 false = some aTerm := by
    norm_num [single_step_loop, attempt, rk_step, buildK, matTvec, vadd, smul, error_norm,
      norm1d, rpowTab, bk1, S23, RK23, funcZeroV, aTerm, max_factor, min_factor, step_mult]
  exact ⟨hrun,
    interval_termination_amended bk1 S23 funcZeroV [0] 1 [0] 1 4 10 false aTerm hrun⟩

/-- The step-growth rule exactly as the claim states it, with no
post-rejection cap: multiply `h` by `min(max_factor, step_mult * errnorm **
error_exponent)`, the factor being `max_factor` when `errnorm == 0`. -/
def claimedAcceptFactor (bk : Backend) (S : Solver) (en : ℚ) : ℚ :=
  if en = 0 then max_factor
  else min max_factor (step_mult * bk.rpow en S.error_exponent)

/-- The accepted attempt of the run refuting the uncapped growth rule:
entered with candidate `h = 45` and `prev_rejected = True`, error norm `0`. -/
def aC4 : Attempt := ⟨45, true, false, 45, 45, [0], [0], [[0], [0], [0], [0]], 0, true, 45⟩

/-- C4, counterexample: with the piecewise derivative, tolerances
`atol = 1, rtol = 0` and target `t1 = 100`, the attempt with `h = 100` is
rejected (error norm `8`), the retry with `h = 45` is accepted with error norm
`0` on a non-terminal sub-step; because the previous attempt was rejected, the
code caps the growth factor at `1.0` and keeps `h = 45`, whereas the claim's
rule (factor `max_factor = 10` whenever `errnorm == 0`) prescribes
`45 * 10 = 450`. -/
theorem step_size_rule_cex :
    single_step_loop bk1 S23 funcPieceV [0] 0 [0] 100 3 100 false = some aC4 ∧
    aC4.accepted = true ∧ aC4.t1_achieved = false ∧ aC4.prevRejected = true ∧
    aC4.errnorm = 0 ∧ aC4.hnext = 45 ∧
    aC4.hcand * claimedAcceptFactor bk1 S23 aC4.errnorm = 450 ∧
    aC4.hnext ≠ aC4.hcand * claimedAcceptFactor bk1 S23 aC4.errnorm := by
  refine ⟨?_, rfl, rfl, rfl, rfl, rfl, ?_, ?_⟩ <;>
    norm_num [single_step_loop, attempt, rk_step, buildK, matTvec, vadd, smul, error_norm,
      norm1d, rpowTab, bk1, S23, RK23, funcPieceV, aC4, claimedAcceptFactor,
      max_factor, min_factor, step_mult]

/-- C4, amended: the step-size adaptation including the post-rejection cap.
On acceptance of a non-terminal sub-step, `h` is multiplied by
`min(max_factor, step_mult * errnorm ** error_exponent)` (the factor being
`max_factor` when `errnorm == 0`), except that when the previous attempt was
rejected the factor is additionally capped at `1.0`; on acceptance of a
terminal sub-step `h` is unchanged; on rejection `h` becomes
`h_used * max(min_factor, step_mult * errnorm ** error_exponent)` and the
loop retries from the same `(f, t_current, y_current)` with
`prev_rejected = True`. -/
theorem step_size_rule_amended (bk : Backend) (S : Solver) (func : ℚ → Vec → Vec)
    (f0 : Vec) (t0 : ℚ) (y0 : Vec) (h t1 : ℚ) (pr : Bool) (fuel : ℕ) (a : Attempt)
    (ha : a = attempt bk S func f0 t0 y0 h t1 pr) :
    (a.accepted = true → a.t1_achieved = false →
      a.hnext = h * (if pr then
          min 1 (if a.errnorm = 0 then max_factor
            else min max_factor (step_mult * bk.rpow a.errnorm S.error_exponent))
        else if a.errnorm = 0 then max_factor
          else min max_factor (step_mult * bk.rpow a.errnorm S.error_exponent))) ∧
    (a.accepted = true → a.t1_achieved = true → a.hnext = h) ∧
    (a.accepted = false →
      a.hnext = a.hstep * max min_factor (step_mult * bk.rpow a.errnorm S.error_exponent) ∧
      single_step_loop bk S func f0 t0 y0 t1 (fuel + 1) h pr =
        single_step_loop bk S func f0 t0 y0 t1 fuel a.hnext true) := by
  subst ha
  refine ⟨?_, ?_, ?_⟩
  · intro hacc hnach
    simp only [attempt] at hacc hnach ⊢
    have h1 := of_decide_eq_true hacc
    have h2 := of_decide_eq_false hnach
    rw [if_pos h1, if_neg h2]
  · intro hacc hach
    simp only [attempt] at hacc hach ⊢
    have h1 := of_decide_eq_true hacc
    have h2 := of_decide_eq_true hach
    rw [if_pos h1, if_pos h2]
  · intro hnacc
    constructor
    · simp only [attempt] at hnacc ⊢
      have h1 := of_decide_eq_false hnacc
      rw [if_neg h1]
    · simp only [single_step_loop, hnacc]
      simp

/-- C4, witness: the amended adaptation rule instantiated on the accepted
attempt of the rejection-then-acceptance run (`h = 45`, `prev_rejected =
True`, error norm `0`): the capped factor gives `hnext = 45 * 1 = 45`. -/
theorem step_size_rule_amended_witness :
    (aC4 = attempt bk1 S23 funcPieceV [0] 0 [0] 45 100 true) ∧
    aC4.accepted = true ∧ aC4.t1_achieved = false ∧
    aC4.hnext = 45 * (if (true : Bool) then
        min 1 (if aC4.errnorm = 0 then max_factor
          else min max_factor (step_mult * bk1.rpow aC4.errnorm S23.error_exponent))
      else if aC4.errnorm = 0 then max_factor
        else min max_factor (step_mult * bk1.rpow aC4.errnorm S23.error_exponent)) := by
  have ha : aC4 = attempt bk1 S23 funcPieceV [0] 0 [0] 45 100 true := by
    norm_num [attempt, rk_step, buildK, matTvec, vadd, smul, error_norm,
      norm1d, rpowTab, bk1, S23, RK23, funcPieceV, aC4, max_factor, min_factor, step_mult]
  exact ⟨ha, rfl, rfl,
    (step_size_rule_amended bk1 S23 funcPieceV [0] 0 [0] 45 100 true 0 aC4 ha).1 rfl rfl⟩

/-- Bounds on the used step of one attempt: when the target lies ahead and the
candidate is nonnegative, the (possibly clamped) used step is nonnegative and
never exceeds the candidate. -/
lemma attempt_hstep_bounds (bk : Backend) (S : Solver) (func : ℚ → Vec → Vec)
    (f0 : Vec) (t0 : ℚ) (y0 : Vec) (h t1 : ℚ) (pr : Bool)
    (hts : t0 ≤ t1) (hh : 0 ≤ h) :
    0 ≤ (attempt bk S func f0 t0 y0 h t1 pr).hstep ∧
    (attempt bk S func f0 t0 y0 h t1 pr).hstep ≤ h := by
  simp only [attempt]
  by_cases hc : t0 + h > t1
  · rw [if_pos hc]
    constructor <;> linarith
  · rw [if_neg hc]
    exact ⟨hh, le_refl h⟩

/-- A rejected attempt is followed by a smaller nonnegative candidate: the
shrink factor `max(min_factor, step_mult * errnorm ** error_exponent)` lies in
`[1/5, 1]` whenever `rpow` maps bases `≥ 1` into `[0, 1]` (as the real power
with negative exponent does). -/
lemma attempt_reject_hnext (bk : Backend) (S : Solver) (func : ℚ → Vec → Vec)
    (f0 : Vec) (t0 : ℚ) (y0 : Vec) (h t1 : ℚ) (pr : Bool)
    (Hrp : ∀ x : ℚ, 1 ≤ x →
      0 ≤ bk.rpow x S.error_exponent ∧ bk.rpow x S.error_exponent ≤ 1)
    (hts : t0 ≤ t1) (hh : 0 ≤ h)
    (hrej : (attempt bk S func f0 t0 y0 h t1 pr).accepted = false) :
    0 ≤ (attempt bk S func f0 t0 y0 h t1 pr).hnext ∧
    (attempt bk S func f0 t0 y0 h t1 pr).hnext ≤
      (attempt bk S func f0 t0 y0 h t1 pr).hstep := by
  obtain ⟨hs0, _⟩ := attempt_hstep_bounds bk S func f0 t0 y0 h t1 pr hts hh
  have hen : ¬ (attempt bk S func f0 t0 y0 h t1 pr).errnorm < 1 := by
    simp only [attempt] at hrej ⊢
    exact of_decide_eq_false hrej
  have hen1 : 1 ≤ (attempt bk S func f0 t0 y0 h t1 pr).errnorm := le_of_not_lt hen
  obtain ⟨hr0, hr1⟩ := Hrp _ hen1
  have hkey : (attempt bk S func f0 t0 y0 h t1 pr).hnext =
      (attempt bk S func f0 t0 y0 h t1 pr).hstep *
        max min_factor (step_mult *
          bk.rpow (attempt bk S func f0 t0 y0 h t1 pr).errnorm S.error_exponent) := by
    simp only [attempt] at hen ⊢
    rw [if_neg hen]
  have hf0 : (0 : ℚ) ≤ max min_factor (step_mult *
      bk.rpow (attempt bk S func f0 t0 y0 h t1 pr).errnorm S.error_exponent) :=
    le_trans (by norm_num [min_factor]) (le_max_left _ _)
  have hf1 : max min_factor (step_mult *
      bk.rpow (attempt bk S func f0 t0 y0 h t1 pr).errnorm S.error_exponent) ≤ 1 := by
    apply max_le
    · norm_num [min_factor]
    · calc step_mult * bk.rpow (attempt bk S func f0 t0 y0 h t1 pr).errnorm S.error_exponent
          ≤ step_mult * 1 := by
            apply mul_le_mul_of_nonneg_left hr1
            norm_num [step_mult]
        _ ≤ 1 := by norm_num [step_mult]
  rw [hkey]
  exact ⟨mul_nonneg hs0 hf0, mul_le_of_le_one_right hs0 hf1⟩

/-- Along the rejection loop the used step never grows: any accepted attempt
eventually returned uses a step at most the current candidate. -/
lemma single_step_loop_hstep_le (bk : Backend) (S : Solver) (func : ℚ → Vec → Vec)
    (f0 : Vec) (t0 : ℚ) (y0 : Vec) (t1 : ℚ)
    (Hrp : ∀ x : ℚ, 1 ≤ x →
      0 ≤ bk.rpow x S.error_exponent ∧ bk.rpow x S.error_exponent ≤ 1)
    (hts : t0 ≤ t1) :
    ∀ (fuel : ℕ) (h : ℚ) (pr : Bool) (a : Attempt), 0 ≤ h →
      single_step_loop bk S func f0 t0 y0 t1 fuel h pr = some a →
      a.hstep ≤ h ∧ 0 ≤ a.hstep := by
  intro fuel
  induction fuel with
  | zero => intro h pr a _ ha; cases ha
  | succ n ih =>
      intro h pr a hh ha
      simp only [single_step_loop] at ha
      split at ha
      · cases ha
        obtain ⟨h0, h1⟩ := attempt_hstep_bounds bk S func f0 t0 y0 h t1 pr hts hh
        exact ⟨h1, h0⟩
      · rename_i hneg
        have hrej : (attempt bk S func f0 t0 y0 h t1 pr).accepted = false :=
          Bool.not_eq_true _ ▸ Bool.of_not_eq_true hneg
        obtain ⟨hn0, hn1⟩ :=
          attempt_reject_hnext bk S func f0 t0 y0 h t1 pr Hrp hts hh hrej
        obtain ⟨hs0, _⟩ := attempt_hstep_bounds bk S func f0 t0 y0 h t1 pr hts hh
        obtain ⟨ha1, ha0⟩ := ih _ true a hn0 ha
        refine ⟨?_, ha0⟩
        calc a.hstep ≤ (attempt bk S func f0 t0 y0 h t1 pr).hnext := ha1
          _ ≤ (attempt bk S func f0 t0 y0 h t1 pr).hstep := hn1
          _ ≤ h := (attempt_hstep_bounds bk S func f0 t0 y0 h t1 pr hts hh).2

/-- C6: whenever a sub-step is rejected, the accepted sub-step that ends the
same `_single_step` call uses a step size that does not exceed the step size
that was rejected — given that the target lies ahead, the candidate is
nonnegative, and `rpow` maps bases `≥ 1` into `[0, 1]` under the (negative)
error exponent, as the real power does. -/
theorem step_growth_cap (bk : Backend) (S : Solver) (func : ℚ → Vec → Vec)
    (f0 : Vec) (t0 : ℚ) (y0 : Vec) (t1 h : ℚ) (pr : Bool) (fuel : ℕ) (a : Attempt)
    (Hrp : ∀ x : ℚ, 1 ≤ x →
      0 ≤ bk.rpow x S.error_exponent ∧ bk.rpow x S.error_exponent ≤ 1)
    (hts : t0 ≤ t1) (hh : 0 ≤ h)
    (hrej : (attempt bk S func f0 t0 y0 h t1 pr).accepted = false)
    (ha : single_step_loop bk S func f0 t0 y0 t1 (fuel + 1) h pr = some a) :
    a.hstep ≤ (attempt bk S func f0 t0 y0 h t1 pr).hstep := by
  simp only [single_step_loop, hrej] at ha
  simp only [Bool.false_eq_true, if_false] at ha
  obtain ⟨hn0, hn1⟩ := attempt_reject_hnext bk S func f0 t0 y0 h t1 pr Hrp hts hh hrej
  obtain ⟨ha1, _⟩ :=
    single_step_loop_hstep_le bk S func f0 t0 y0 t1 Hrp hts fuel _ true a hn0 ha
  exact le_trans ha1 hn1

/-- C6, witness: in the rejection-then-acceptance run the attempt with
candidate `h = 100` is rejected (used step `100`), and the accepted retry uses
step `45 ≤ 100`. -/
theorem step_growth_cap_witness :
    (∀ x : ℚ, 1 ≤ x →
      0 ≤ bk1.rpow x S23.error_exponent ∧ bk1.rpow x S23.error_exponent ≤ 1) ∧
    (0 : ℚ) ≤ 100 ∧
    (attempt bk1 S23 funcPieceV [0] 0 [0] 100 100 false).accepted = false ∧
    single_step_loop bk1 S23 funcPieceV [0] 0 [0] 100 3 100 false = some aC4 ∧
    aC4.hstep ≤ (attempt bk1 S23 funcPieceV [0] 0 [0] 100 100 false).hstep := by
  have hrp : ∀ x : ℚ, 1 ≤ x →
      0 ≤ bk1.rpow x S23.error_exponent ∧ bk1.rpow x S23.error_exponent ≤ 1 := by
    intro x hx
    simp only [bk1, rpowTab]
    split <;> norm_num
  have hrej : (attempt bk1 S23 funcPieceV [0] 0 [0] 100 100 false).accepted = false := by
    norm_num [attempt, rk_step, buildK, matTvec, vadd, smul, error_norm,
      norm1d, rpowTab, bk1, S23, RK23, funcPieceV, max_factor, min_factor, step_mult]
  have hrun : single_step_loop bk1 S23 funcPieceV [0] 0 [0] 100 3 100 false = some aC4 := by
    norm_num [single_step_loop, attempt, rk_step, buildK, matTvec, vadd, smul, error_norm,
      norm1d, rpowTab, bk1, S23, RK23, funcPieceV, aC4, max_factor, min_factor, step_mult]
  exact ⟨hrp, by norm_num, hrej, hrun,
    step_growth_cap bk1 S23 funcPieceV [0] 0 [0] 100 100 false 2 aC4 hrp
      (by norm_num) (by norm_num) hrej hrun⟩

/-- `getD` through pointwise negation of a list. -/
lemma getD_map_neg (l : List ℚ) : ∀ n : ℕ, (l.map (fun t => -t)).getD n 0 = -(l.getD n 0) := by
  induction l with
  | nil => intro n; simp
  | cons x xs ih =>
      intro n
      cases n with
      | zero => rfl
      | succ m => simpa using ih m

/-- C7: when the requested grid is decreasing (`ts[1] - ts[0] < 0`), `setup`
negates the time axis (`self.ts = -ts`) and wraps the derivative as
`wrapped(t, y) = -derivative_fn(-t, y, *params)` so the kernel integrates
forward; the `i`-th internal grid point is `-ts[i]`, i.e. the `i`-th entry of
the returned trajectory is integrated to the caller's original time `ts[i]`,
and the trajectory has exactly one entry per entry of the caller's `ts`. -/
theorem backward_grid_wrapping (α : Type) (bk : Backend) (S : Solver)
    (fcn : ℚ → Tensor → α → Tensor) (ts : List ℚ) (y0 : Tensor) (params : α)
    (inner outer : ℕ)
    (hdec : ts.getD 1 0 - ts.getD 0 0 < 0) :
    setup_ts ts = ts.map (fun t => -t) ∧
    (∀ t y, setup_func fcn y0.shape params ts t y =
      ((fcn (-t) ⟨y0.shape, y⟩ params).data).map (fun x => -x)) ∧
    (∀ i : ℕ, (setup_ts ts).getD i 0 = -(ts.getD i 0)) ∧
    (∀ out, solve bk S fcn ts y0 params inner outer = some out →
      out.length = ts.length) := by
  have h1 : setup_ts ts = ts.map (fun t => -t) := by
    rw [setup_ts, if_pos hdec]
  have h2 : ∀ t y, setup_func fcn y0.shape params ts t y =
      ((fcn (-t) ⟨y0.shape, y⟩ params).data).map (fun x => -x) := by
    intro t y
    rw [setup_func, if_pos hdec]
  refine ⟨h1, h2, ?_, ?_⟩
  · intro i
    rw [h1]
    exact getD_map_neg ts i
  · intro out hout
    have hne : ts ≠ [] := by
      intro he
      rw [he] at hdec
      norm_num at hdec
    simp only [solve, Option.map_eq_some'] at hout
    obtain ⟨ys, hys, rfl⟩ := hout
    have hlen := (solve_loop_some bk S (setup_func fcn y0.shape params ts)
      inner outer _ _ ys hys).1
    have hpos : 1 ≤ ts.length := List.length_pos.mpr hne
    simp only [List.length_map, List.length_cons, hlen, List.length_drop, h1]
    omega

/-- C7, witness: the backward-grid characterization instantiated on the
decreasing grid `ts = [1, 0]` with the zero derivative. -/
theorem backward_grid_wrapping_witness :
    (([1, (0 : ℚ)].getD 1 0 - [1, (0 : ℚ)].getD 0 0) < 0) ∧
    setup_ts [1, 0] = [1, (0 : ℚ)].map (fun t => -t) ∧
    (solve bk1 S23 fcnZero [1, 0] ⟨[1], [0]⟩ () 4 4 =
      some [⟨[1], [0]⟩, ⟨[1], [0]⟩]) ∧
    ([⟨[1], [0]⟩, ⟨[1], [0]⟩] : List Tensor).length = [1, (0 : ℚ)].length := by
  have hdec : ([1, (0 : ℚ)].getD 1 0 - [1, (0 : ℚ)].getD 0 0) < 0 := by norm_num
  have hrun : solve bk1 S23 fcnZero [1, 0] ⟨[1], [0]⟩ () 4 4 =
      some [⟨[1], [0]⟩, ⟨[1], [0]⟩] := by
    norm_num [solve, setup_ts, setup_func, solve_loop, step_loop, single_step,
      single_step_loop, attempt, rk_step, buildK, matTvec, vadd, smul, error_norm,
      norm1d, rpowTab, bk1, S23, RK23, fcnZero, max_factor, min_factor, step_mult]
  exact ⟨hdec,
    (backward_grid_wrapping Unit bk1 S23 fcnZero [1, 0] ⟨[1], [0]⟩ () 4 4 hdec).1, hrun,
    (backward_grid_wrapping Unit bk1 S23 fcnZero [1, 0] ⟨[1], [0]⟩ () 4 4 hdec).2.2.2
      _ hrun⟩

/-- C8: for every `y0` of any shape and every `ts` of length at least 2, a
returning `solve` call produces exactly one state per entry of `ts`, every
entry carries exactly `y0`'s shape, and the first entry is `y0` itself,
unchanged (the model's exact copy of `yt[0] = self.y0`). -/
theorem solve_shapes_and_initial_value (α : Type) (bk : Backend) (S : Solver)
    (fcn : ℚ → Tensor → α → Tensor) (ts : List ℚ) (y0 : Tensor) (params : α)
    (inner outer : ℕ) (out : List Tensor)
    (hts : 2 ≤ ts.length)
    (hout : solve bk S fcn ts y0 params inner outer = some out) :
    out.length = ts.length ∧ out.head? = some y0 ∧ ∀ T ∈ out, T.shape = y0.shape := by
  simp only [solve, Option.map_eq_some'] at hout
  obtain ⟨ys, hys, rfl⟩ := hout
  have hlen := (solve_loop_some bk S (setup_func fcn y0.shape params ts)
    inner outer _ _ ys hys).1
  have hlen2 : (setup_ts ts).length = ts.length := by
    rw [setup_ts]
    split <;> simp
  refine ⟨?_, ?_, ?_⟩
  · simp only [List.length_map, List.length_cons, hlen, List.length_drop, hlen2]
    omega
  · show some (⟨y0.shape, y0.data⟩ : Tensor) = some y0
    rfl
  · intro T hT
    obtain ⟨v, _, rfl⟩ := List.mem_map.mp hT
    rfl

/-- C8, witness: the shape and initial-value guarantees instantiated on the
concrete solved trajectory with `ts = [0, 1]` and `y0` of shape `[1]`. -/
theorem solve_shapes_and_initial_value_witness :
    2 ≤ [0, (1 : ℚ)].length ∧
    (solve bk1 S23 fcnZero [0, 1] ⟨[1], [0]⟩ () 4 4 =
      some [⟨[1], [0]⟩, ⟨[1], [0]⟩]) ∧
    (([⟨[1], [0]⟩, ⟨[1], [0]⟩] : List Tensor).length = [0, (1 : ℚ)].length ∧
     ([⟨[1], [0]⟩, ⟨[1], [0]⟩] : List Tensor).head? = some ⟨[1], [0]⟩ ∧
     ∀ T ∈ ([⟨[1], [0]⟩, ⟨[1], [0]⟩] : List Tensor), T.shape = (⟨[1], [0]⟩ : Tensor).shape) := by
  have hrun : solve bk1 S23 fcnZero [0, 1] ⟨[1], [0]⟩ () 4 4 =
      some [⟨[1], [0]⟩, ⟨[1], [0]⟩] := by
    norm_num [solve, setup_ts, setup_func, solve_loop, step_loop, single_step,
      single_step_loop, attempt, rk_step, buildK, matTvec, vadd, smul, error_norm,
      norm1d, rpowTab, bk1, S23, RK23, fcnZero, max_factor, min_factor, step_mult]
  exact ⟨by norm_num, hrun,
    solve_shapes_and_initial_value Unit bk1 S23 fcnZero [0, 1] ⟨[1], [0]⟩ () 4 4
      [⟨[1], [0]⟩, ⟨[1], [0]⟩] (by norm_num) hrun⟩

/-- A time grid that is neither strictly increasing nor strictly decreasing. -/
def tsNotMonotonic (ts : List ℚ) : Prop :=
  ¬ (List.Chain' (· < ·) ts ∨ List.Chain' (· > ·) ts)

/-- C9, counterexample: the grid `[0, 1, 1/2]` is neither strictly increasing
nor strictly decreasing, yet the stepper performs no validation: `setup`
succeeds and `solve` returns an ordinary trajectory (here with the zero
derivative) instead of rejecting with an error — the model's only failure
channel (`none`, from fuel exhaustion) is not taken. -/
theorem nonmonotonic_grid_cex :
    tsNotMonotonic [0, 1, 1/2] ∧
    solve bk1 S23 fcnZero [0, 1, 1/2] ⟨[1], [0]⟩ () 4 4 =
      some [⟨[1], [0]⟩, ⟨[1], [0]⟩, ⟨[1], [0]⟩] := by
  constructor
  · simp only [tsNotMonotonic, List.chain'_cons, List.chain'_singleton]
    norm_num
  · norm_num [solve, setup_ts, setup_func, solve_loop, step_loop, single_step,
      single_step_loop, attempt, rk_step, buildK, matTvec, vadd, smul, error_norm,
      norm1d, rpowTab, bk1, S23, RK23, fcnZero, max_factor, min_factor, step_mult]

/-- C9, amended: the stepper performs no monotonicity validation at all —
`setup` reads only the sign of `ts[1] - ts[0]` to pick the direction (negating
the grid iff that difference is negative), and on a non-monotonic grid `solve`
proceeds and returns one state per grid entry rather than raising. -/
theorem nonmonotonic_grid_amended :
    (∀ ts : List ℚ, setup_ts ts =
      if ts.getD 1 0 - ts.getD 0 0 < 0 then ts.map (fun t => -t) else ts) ∧
    tsNotMonotonic [0, 1, 1/2] ∧
    setup_ts [0, 1, 1/2] = [0, 1, 1/2] ∧
    (∃ out, solve bk1 S23 fcnZero [0, 1, 1/2] ⟨[1], [0]⟩ () 4 4 = some out ∧
      out.length = 3) := by
  refine ⟨fun ts => rfl, ?_, ?_, ?_⟩
  · simp only [tsNotMonotonic, List.chain'_cons, List.chain'_singleton]
    norm_num
  · rw [setup_ts, if_neg (by norm_num)]
  · refine ⟨[⟨[1], [0]⟩, ⟨[1], [0]⟩, ⟨[1], [0]⟩], ?_, rfl⟩
    norm_num [solve, setup_ts, setup_func, solve_loop, step_loop, single_step,
      single_step_loop, attempt, rk_step, buildK, matTvec, vadd, smul, error_norm,
      norm1d, rpowTab, bk1, S23, RK23, fcnZero, max_factor, min_factor, step_mult]
